import Mathlib

/-!
A verification development for the crossword-grid generator `crosswords.py`.

The script builds one CP-SAT model: letter variables `L`, black-square
indicators `B`, across/down start indicators `A`/`D`, word-id variables
`IA`/`ID`, lone-letter indicators `LLA`/`LLD` and their or-with-black
variants `LLAB`/`LLDB`, plus, per candidate word placement, the auxiliary
booleans of the hand-rolled reified table constraint.  Everything below is a
shallow embedding of that model: each Python constraint-posting statement
becomes one clause of a satisfaction predicate over a full solver assignment,
and the theorems settle the specification's claims against it.
-/

namespace Crosswords

/-- Value of a CP-SAT boolean variable, as the 0/1 integer the solver sums. -/
def b2n (b : Bool) : Nat := if b then 1 else 0

/-- The alphabet string of `word_to_numbers`: a space then the 26 letters, so
that the k-th letter maps to code k and the space maps to 0. -/
def alphabet : List Char := " ABCDEFGHIJKLMNOPQRSTUVWXYZ".toList

/-- `word_to_numbers`: the list of codes of a word, via
`' ABCDEFGHIJKLMNOPQRSTUVWXYZ'.find(letter) for letter in word.upper()`.
Python's `str.find` yields -1 for a character outside the alphabet. -/
def word_to_numbers (word : List Char) : List Int :=
  word.map fun letter =>
    match alphabet.findIdx? (fun a => a == letter.toUpper) with
    | some i => (i : Int)
    | none => -1

/-- `load_words`, read through its keys: the tuple list the wordlist dict
holds at key `l`.  Each word contributes its codes with its id appended; ids
are positions in the input list.  The dict holds key `l` exactly when some
input word has length `l`, i.e. exactly when this list is nonempty. -/
def load_words (ws : List (List Char)) : Nat → List (List Int) := fun l =>
  (ws.enum.filter fun p => p.2.length == l).map fun p =>
    word_to_numbers p.2 ++ [(p.1 : Int)]

/-- `l in wordlist`: some input word has length `l`. -/
def hasLen (ws : List (List Char)) (l : Nat) : Bool := ws.any fun w => w.length == l

/-- The id-variable domain bound of lines 130 and 189:
`sum(len(wordlist[l]) for l in wordlist) + rows*columns*2`. -/
def idBound (ws : List (List Char)) (rows columns : Nat) : Int :=
  ((((ws.map fun w => w.length).dedup.map fun l => (load_words ws l).length).sum
    + rows * columns * 2 : Nat) : Int)

/-- Python `max` over a list of ints; the program applies it only to nonempty
lists holding a nonnegative entry, where this 0-seeded fold agrees with it. -/
def pyMax (t : List Int) : Int := t.foldr max 0

/-- `max_value = max(max(t) for t in tuples)` (line 67). -/
def maxVal (tuples : List (List Int)) : Int := pyMax (tuples.map pyMax)

/-- The count of candidate values `0..max_value` the `is_assigned` grid ranges
over (`range(max_value+1)`). -/
def numVals (tuples : List (List Int)) : Nat := (maxVal tuples + 1).toNat

/-- `possible_values[i]` membership: value `j` occurs at position `i` of some
tuple (lines 66-70). -/
def possibleVal (tuples : List (List Int)) (i : Nat) (j : Int) : Bool :=
  tuples.any fun t => t.get? i == some j

/-- Total list indexing for tuple entries; every use is in range. -/
def getI (t : List Int) (i : Nat) : Int := t.getD i 0

/-- The constraints the `table` builder posts (crosswords.py lines 55-97), as
satisfaction by a full solver assignment: `vals` are the values of
`variables`, `guard` the value of `option`, `asg i j` the value of
`is_assigned[i][j]`, and `b ti` the value of the tuple-selected boolean
`b[ti]`.  The five clauses are, in source order: impossible values forced
false under the guard (line 81), each variable assigned exactly one value
under the guard (line 85), an indicator forces its variable's value (line
90), a selected tuple forces all its indicators (line 94, with the tuple
entry used as a list index, hence `toNat`), and exactly one tuple selected
under the guard (line 97). -/
def tableSat (tuples : List (List Int)) (vals : List Int) (guard : Bool)
    (asg : Nat → Nat → Bool) (b : Nat → Bool) : Prop :=
  (∀ i < vals.length, ∀ j < numVals tuples,
      possibleVal tuples i (j : Int) = false → guard = true → asg i j = false) ∧
  (∀ i < vals.length, guard = true →
      (∑ j ∈ Finset.range (numVals tuples), b2n (asg i j)) = 1) ∧
  (∀ i < vals.length, ∀ j < numVals tuples, asg i j = true → getI vals i = (j : Int)) ∧
  (∀ ti < tuples.length, b ti = true →
      ∀ k < (tuples.getD ti []).length, asg k (getI (tuples.getD ti []) k).toNat = true) ∧
  (guard = true → (∑ ti ∈ Finset.range tuples.length, b2n (b ti)) = 1)

/-- An assignment of the table's own variables is accepted when the auxiliary
booleans the builder creates can be completed so that every posted constraint
is satisfied. -/
def tableAccepts (tuples : List (List Int)) (vals : List Int) (guard : Bool) : Prop :=
  ∃ asg b, tableSat tuples vals guard asg b

/-- A full assignment of the model's variables.  The grid variables follow the
script's names; `asgA l r c` and `bA l r c` are the auxiliaries of the table
call guarded by `A[l][r][c]` (line 180), `asgD`/`bD` those of the call guarded
by `D[l][r][c]` (line 239).  Functions are total; the model only constrains
the in-range part. -/
structure Assign where
  L : Nat → Nat → Int
  B : Nat → Nat → Bool
  A : Nat → Nat → Nat → Bool
  IA : Nat → Nat → Int
  D : Nat → Nat → Nat → Bool
  ID : Nat → Nat → Int
  LLA : Nat → Nat → Bool
  LLAB : Nat → Nat → Bool
  LLD : Nat → Nat → Bool
  LLDB : Nat → Nat → Bool
  asgA : Nat → Nat → Nat → Nat → Nat → Bool
  bA : Nat → Nat → Nat → Nat → Bool
  asgD : Nat → Nat → Nat → Nat → Nat → Bool
  bD : Nat → Nat → Nat → Nat → Bool

/-- The variable list of the across table call at `(l, r, c)`:
`[L[r][c+i] for i in range(l)] + [IA[r][c]]` (line 180). -/
def acrossVals (s : Assign) (l r c : Nat) : List Int :=
  ((List.range l).map fun i => s.L r (c + i)) ++ [s.IA r c]

/-- The start-indicator window sum the across loop posts for an in-range
placement, by the four boundary branches of lines 150-176: full row, left
edge, right edge, interior. -/
def acrossWindowSum (s : Assign) (columns l r c : Nat) : Nat :=
  if l = columns then
    ∑ i ∈ Finset.range (columns + 1), ∑ j ∈ Finset.range (columns - c), b2n (s.A i r (c + j))
  else if c = 0 then
    ∑ i ∈ Finset.range (columns + 1), ∑ j ∈ Finset.range (l + 1), b2n (s.A i r (c + j))
  else if c + l = columns then
    ∑ i ∈ Finset.range (columns + 1), ∑ j ∈ Finset.range (columns - c), b2n (s.A i r (c + j))
  else
    ∑ i ∈ Finset.range (columns + 1), ∑ j ∈ Finset.range (l + 2), b2n (s.A i r (c - 1 + j))

/-- The constraints the across loop posts for one `(l, r, c)` (lines 135-180):
the start indicator is forced false when no word of length `l` exists or the
word overruns the row; otherwise the boundary-window sum must be 1 whenever
the indicator holds, and the reified table constraint over the run's letters
plus the id variable is posted under the indicator. -/
def acrossCell (columns : Nat) (ws : List (List Char)) (s : Assign) (l r c : Nat) : Prop :=
  if hasLen ws l = false then s.A l r c = false
  else if columns - c < l then s.A l r c = false
  else
    (s.A l r c = true → acrossWindowSum s columns l r c = 1) ∧
    tableSat (load_words ws l) (acrossVals s l r c) (s.A l r c)
      (s.asgA l r c) (s.bA l r c)

/-- The whole across section: one `acrossCell` per loop iteration
(`l in range(columns+1)`, `r in range(rows)`, `c in range(columns)`). -/
def acrossSat (rows columns : Nat) (ws : List (List Char)) (s : Assign) : Prop :=
  ∀ l < columns + 1, ∀ r < rows, ∀ c < columns, acrossCell columns ws s l r c

/-- The variable list of the down table call at `(l, r, c)`:
`[L[r+i][c] for i in range(l)] + [ID[r][c]]` (line 239). -/
def downVals (s : Assign) (l r c : Nat) : List Int :=
  ((List.range l).map fun i => s.L (r + i) c) ++ [s.ID r c]

/-- The start-indicator window sum the down loop posts for an in-range
placement (lines 209-235): full column, top edge, bottom edge, interior. -/
def downWindowSum (s : Assign) (rows l r c : Nat) : Nat :=
  if l = rows then
    ∑ i ∈ Finset.range (rows + 1), ∑ j ∈ Finset.range (rows - r), b2n (s.D i (r + j) c)
  else if r = 0 then
    ∑ i ∈ Finset.range (rows + 1), ∑ j ∈ Finset.range (l + 1), b2n (s.D i (r + j) c)
  else if r + l = rows then
    ∑ i ∈ Finset.range (rows + 1), ∑ j ∈ Finset.range (rows - r), b2n (s.D i (r + j) c)
  else
    ∑ i ∈ Finset.range (rows + 1), ∑ j ∈ Finset.range (l + 2), b2n (s.D i (r - 1 + j) c)

/-- The constraints the down loop posts for one `(l, r, c)` (lines 194-239). -/
def downCell (rows : Nat) (ws : List (List Char)) (s : Assign) (l r c : Nat) : Prop :=
  if hasLen ws l = false then s.D l r c = false
  else if rows - r < l then s.D l r c = false
  else
    (s.D l r c = true → downWindowSum s rows l r c = 1) ∧
    tableSat (load_words ws l) (downVals s l r c) (s.D l r c)
      (s.asgD l r c) (s.bD l r c)

/-- The whole down section: one `downCell` per loop iteration
(`l in range(rows+1)`, `r in range(rows)`, `c in range(columns)`). -/
def downSat (rows columns : Nat) (ws : List (List Char)) (s : Assign) : Prop :=
  ∀ l < rows + 1, ∀ r < rows, ∀ c < columns, downCell rows ws s l r c

/-- The cell enumeration `for r in range(rows) for c in range(columns)`. -/
def allCells (rows columns : Nat) : List (Nat × Nat) :=
  (List.range rows).flatMap fun r => (List.range columns).map fun c => (r, c)

/-- The values `AddAllDifferent` ranges over (lines 241-247): every `IA[r][c]`
followed by every `ID[r][c]`. -/
def allIdVals (rows columns : Nat) (s : Assign) : List Int :=
  ((allCells rows columns).map fun p => s.IA p.1 p.2) ++
    ((allCells rows columns).map fun p => s.ID p.1 p.2)

/-- The across coverage window sum of lines 282-284:
`A[i][r][c-j] for i in range(columns+1) for j in range(min(i, c+1))`. -/
def acrossCoverSum (s : Assign) (columns r c : Nat) : Nat :=
  ∑ i ∈ Finset.range (columns + 1), ∑ j ∈ Finset.range (min i (c + 1)), b2n (s.A i r (c - j))

/-- The down coverage window sum of lines 320-322:
`D[i][r-j][c] for i in range(rows+1) for j in range(min(i, r+1))`. -/
def downCoverSum (s : Assign) (rows r c : Nat) : Nat :=
  ∑ i ∈ Finset.range (rows + 1), ∑ j ∈ Finset.range (min i (r + 1)), b2n (s.D i (r - j) c)

/-- The black-square count of one 3x3 sub-window (lines 335-337). -/
def blackWindow (s : Assign) (r c : Nat) : Nat :=
  ∑ i ∈ Finset.Ico r (r + 3), ∑ j ∈ Finset.Ico c (c + 3), b2n (s.B i j)

/-- The total black-square sum of lines 341-343. -/
def blackTotal (s : Assign) (rows columns : Nat) : Nat :=
  ∑ r ∈ Finset.range rows, ∑ c ∈ Finset.range columns, b2n (s.B r c)

/-- Variable domains: `L` in 0..26 (line 108), `IA`/`ID` in 0..`idBound`
(lines 130, 189). -/
def domainSat (rows columns : Nat) (ws : List (List Char)) (s : Assign) : Prop :=
  (∀ r < rows, ∀ c < columns, 0 ≤ s.L r c ∧ s.L r c ≤ 26) ∧
  (∀ r < rows, ∀ c < columns,
      0 ≤ s.IA r c ∧ s.IA r c ≤ idBound ws rows columns ∧
      0 ≤ s.ID r c ∧ s.ID r c ≤ idBound ws rows columns)

/-- The B-L link of lines 118-121: a black square has letter value 0 and
conversely. -/
def linkBLSat (rows columns : Nat) (s : Assign) : Prop :=
  ∀ r < rows, ∀ c < columns,
    (s.B r c = true → s.L r c = 0) ∧ (s.B r c = false → s.L r c ≠ 0)

/-- The LLA constraints of lines 256-264: edge cells equal their single
interior neighbour's blackness; interior cells are lone across iff both
horizontal neighbours are black. -/
def llaSat (rows columns : Nat) (s : Assign) : Prop :=
  ∀ r < rows,
    s.LLA r 0 = s.B r 1 ∧ s.LLA r (columns - 1) = s.B r (columns - 2) ∧
    ∀ c < columns - 1, 1 ≤ c →
      (s.LLA r c = true → b2n (s.B r (c - 1)) + b2n (s.B r (c + 1)) = 2) ∧
      (s.LLA r c = false → b2n (s.B r (c - 1)) + b2n (s.B r (c + 1)) ≤ 1)

/-- The LLAB link of lines 273-276 and the across coverage constraint of
lines 280-285. -/
def llabSat (rows columns : Nat) (s : Assign) : Prop :=
  (∀ r < rows, ∀ c < columns,
      (s.LLAB r c = true → 1 ≤ b2n (s.LLA r c) + b2n (s.B r c)) ∧
      (s.LLAB r c = false → b2n (s.LLA r c) + b2n (s.B r c) = 0)) ∧
  (∀ r < rows, ∀ c < columns,
      s.LLAB r c = false → acrossCoverSum s columns r c = 1)

/-- The LLD constraints of lines 294-302. -/
def lldSat (rows columns : Nat) (s : Assign) : Prop :=
  ∀ c < columns,
    s.LLD 0 c = s.B 1 c ∧ s.LLD (rows - 1) c = s.B (rows - 2) c ∧
    ∀ r < rows - 1, 1 ≤ r →
      (s.LLD r c = true → b2n (s.B (r - 1) c) + b2n (s.B (r + 1) c) = 2) ∧
      (s.LLD r c = false → b2n (s.B (r - 1) c) + b2n (s.B (r + 1) c) ≤ 1)

/-- The LLDB link of lines 311-314 and the down coverage constraint of lines
318-323. -/
def lldbSat (rows columns : Nat) (s : Assign) : Prop :=
  (∀ r < rows, ∀ c < columns,
      (s.LLDB r c = true → 1 ≤ b2n (s.LLD r c) + b2n (s.B r c)) ∧
      (s.LLDB r c = false → b2n (s.LLD r c) + b2n (s.B r c) = 0)) ∧
  (∀ r < rows, ∀ c < columns,
      s.LLDB r c = false → downCoverSum s rows r c = 1)

/-- Lone-letter exclusivity (lines 326-328), the 3x3 window bound (332-338)
and the total black-square bound (341-344; `int(rows*columns/5)` is the exact
integer floor for every model the script can build). -/
def blackSat (rows columns : Nat) (s : Assign) : Prop :=
  (∀ r < rows, ∀ c < columns, b2n (s.LLA r c) + b2n (s.LLD r c) ≤ 1) ∧
  (3 ≤ rows → 3 ≤ columns →
      ∀ r < rows - 2, ∀ c < columns - 2, blackWindow s r c ≤ 2) ∧
  blackTotal s rows columns ≤ rows * columns / 5

/-- Satisfaction of every constraint the script posts, grouped in source
order: domains, the B-L link, the across section, the down section,
all-different ids, the lone-letter machinery with both coverage constraints,
and the black-square bounds. -/
def modelSat (rows columns : Nat) (ws : List (List Char)) (s : Assign) : Prop :=
  domainSat rows columns ws s ∧
  linkBLSat rows columns s ∧
  acrossSat rows columns ws s ∧
  downSat rows columns ws s ∧
  (allIdVals rows columns s).Nodup ∧
  llaSat rows columns s ∧
  llabSat rows columns s ∧
  lldSat rows columns s ∧
  lldbSat rows columns s ∧
  blackSat rows columns s

/-- Stated from the claim's words (C3): the four start-indicator windows as
inclusive column ranges — (1) full span: the whole row from `c`; (2) left
edge: columns `c..c+l`; (3) right edge: columns `c..columns-1`; (4) interior:
columns `c-1..c+l` — each ranging over all lengths. -/
def specAcrossWindowSum (s : Assign) (columns l r c : Nat) : Nat :=
  if l = columns then
    ∑ i ∈ Finset.range (columns + 1), ∑ x ∈ Finset.Icc c (columns - 1), b2n (s.A i r x)
  else if c = 0 then
    ∑ i ∈ Finset.range (columns + 1), ∑ x ∈ Finset.Icc c (c + l), b2n (s.A i r x)
  else if c + l = columns then
    ∑ i ∈ Finset.range (columns + 1), ∑ x ∈ Finset.Icc c (columns - 1), b2n (s.A i r x)
  else
    ∑ i ∈ Finset.range (columns + 1), ∑ x ∈ Finset.Icc (c - 1) (c + l), b2n (s.A i r x)

/-- Stated from the claim's words (C6): the number of active across start
indicators covering cell `(r, c)` — pairs of a length `i` and a start column
`x ≤ c` whose word extends past `c`. -/
def acrossCoverCount (s : Assign) (columns r c : Nat) : Nat :=
  ∑ i ∈ Finset.range (columns + 1), ∑ x ∈ Finset.range (c + 1),
    if c < x + i ∧ s.A i r x = true then 1 else 0

/-- Stated from the claim's words (C6): the number of active down start
indicators covering cell `(r, c)`. -/
def downCoverCount (s : Assign) (rows r c : Nat) : Nat :=
  ∑ i ∈ Finset.range (rows + 1), ∑ x ∈ Finset.range (r + 1),
    if r < x + i ∧ s.D i x c = true then 1 else 0

/-- Stated from the claim's words (C8): the number of black cells (letter
value 0) of the whole grid. -/
def blackCellCount (s : Assign) (rows columns : Nat) : Nat :=
  ∑ r ∈ Finset.range rows, ∑ c ∈ Finset.range columns, if s.L r c = 0 then 1 else 0

/-- Stated from the claim's words (C8): the number of black cells of the 3x3
sub-window anchored at `(r, c)`. -/
def blackCellWindow (s : Assign) (r c : Nat) : Nat :=
  ∑ i ∈ Finset.Ico r (r + 3), ∑ j ∈ Finset.Ico c (c + 3), if s.L i j = 0 then 1 else 0

/-- The row/column transposition of an assignment: across data becomes down
data at the mirrored cell and conversely. -/
def transposeAssign (s : Assign) : Assign where
  L := fun r c => s.L c r
  B := fun r c => s.B c r
  A := fun l r c => s.D l c r
  IA := fun r c => s.ID c r
  D := fun l r c => s.A l c r
  ID := fun r c => s.IA c r
  LLA := fun r c => s.LLD c r
  LLAB := fun r c => s.LLDB c r
  LLD := fun r c => s.LLA c r
  LLDB := fun r c => s.LLAB c r
  asgA := fun l r c => s.asgD l c r
  bA := fun l r c => s.bD l c r
  asgD := fun l r c => s.asgA l c r
  bD := fun l r c => s.bA l c r

/-- The statuses `CpSolver.Solve` can report. -/
inductive CpStatus where
  | optimal
  | feasible
  | infeasible
  | modelInvalid
  | unknown
deriving DecidableEq

/-- `solver.StatusName(status)`. -/
def statusName : CpStatus → String
  | .optimal => "OPTIMAL"
  | .feasible => "FEASIBLE"
  | .infeasible => "INFEASIBLE"
  | .modelInvalid => "MODEL_INVALID"
  | .unknown => "UNKNOWN"

/-- The decode alphabet `'.ABCDEFGHIJKLMNOPQRSTUVWXYZ'` of line 358. -/
def letterChars : List Char := ".ABCDEFGHIJKLMNOPQRSTUVWXYZ".toList

/-- The grid printed on success: each letter value indexes the decode
alphabet (lines 356-359). -/
def decodeGrid (rows columns : Nat) (lVal : Nat → Nat → Int) : List (List Char) :=
  (List.range rows).map fun r =>
    (List.range columns).map fun c => letterChars.getD (lVal r c).toNat ' '

/-- Lines 346-359 after the solve call: when the status name differs from
"OPTIMAL" the script exits without touching any letter variable (`none`);
otherwise it decodes the full grid. -/
def solveOutput (status : CpStatus) (rows columns : Nat)
    (lVal : Nat → Nat → Int) : Option (List (List Char)) :=
  if statusName status ≠ "OPTIMAL" then none else some (decodeGrid rows columns lVal)

/-- Python list indexing succeeds for `i` in `-len..len-1` (a negative index
wraps around). -/
def pyListIdxOk (len : Nat) (i : Int) : Bool :=
  decide (-(len : Int) ≤ i ∧ i < (len : Int))

/-- The list-index accesses with fixed offsets that model construction
performs while posting the lone-letter constraints: lines 258-259 access
`B[r][1]` and `B[r][columns-2]` for each row, lines 296-297 access `B[1][c]`
and `B[rows-2][c]` for each column.  Construction completes without an
IndexError exactly when every such access is in Python's legal range. -/
def constructionOk (rows columns : Nat) : Bool :=
  (decide (rows = 0) ||
    (pyListIdxOk columns 1 && pyListIdxOk columns ((columns : Int) - 1) &&
      pyListIdxOk columns ((columns : Int) - 2) && pyListIdxOk columns 0)) &&
  (decide (columns = 0) ||
    (pyListIdxOk rows 1 && pyListIdxOk rows ((rows : Int) - 1) &&
      pyListIdxOk rows ((rows : Int) - 2) && pyListIdxOk rows 0))

/-- The placements at which the across loop reaches its else branch and hence
invokes the table builder (lines 149-180): the length has words and the word
fits to the right. -/
def acrossTableCalls (rows columns : Nat) (ws : List (List Char)) :
    List (Nat × Nat × Nat) :=
  ((List.range (columns + 1)).flatMap fun l =>
    (List.range rows).flatMap fun r =>
      (List.range columns).map fun c => (l, r, c)).filter fun p =>
    hasLen ws p.1 && decide (p.1 ≤ columns - p.2.2)

/-- The placements at which the down loop invokes the table builder
(lines 208-239). -/
def downTableCalls (rows columns : Nat) (ws : List (List Char)) :
    List (Nat × Nat × Nat) :=
  ((List.range (rows + 1)).flatMap fun l =>
    (List.range rows).flatMap fun r =>
      (List.range columns).map fun c => (l, r, c)).filter fun p =>
    hasLen ws p.1 && decide (p.1 ≤ rows - p.2.1)

instance (tuples : List (List Int)) (vals : List Int) (guard : Bool)
    (asg : Nat → Nat → Bool) (b : Nat → Bool) :
    Decidable (tableSat tuples vals guard asg b) := by
  unfold tableSat; infer_instance

instance (columns : Nat) (ws : List (List Char)) (s : Assign) (l r c : Nat) :
    Decidable (acrossCell columns ws s l r c) := by
  unfold acrossCell; infer_instance

instance (rows : Nat) (ws : List (List Char)) (s : Assign) (l r c : Nat) :
    Decidable (downCell rows ws s l r c) := by
  unfold downCell; infer_instance

instance (rows columns : Nat) (ws : List (List Char)) (s : Assign) :
    Decidable (acrossSat rows columns ws s) := by
  unfold acrossSat; infer_instance

instance (rows columns : Nat) (ws : List (List Char)) (s : Assign) :
    Decidable (downSat rows columns ws s) := by
  unfold downSat; infer_instance

instance (rows columns : Nat) (ws : List (List Char)) (s : Assign) :
    Decidable (domainSat rows columns ws s) := by
  unfold domainSat; infer_instance

instance (rows columns : Nat) (s : Assign) :
    Decidable (linkBLSat rows columns s) := by
  unfold linkBLSat; infer_instance

instance (rows columns : Nat) (s : Assign) :
    Decidable (llaSat rows columns s) := by
  unfold llaSat; infer_instance

instance (rows columns : Nat) (s : Assign) :
    Decidable (llabSat rows columns s) := by
  unfold llabSat; infer_instance

instance (rows columns : Nat) (s : Assign) :
    Decidable (lldSat rows columns s) := by
  unfold lldSat; infer_instance

instance (rows columns : Nat) (s : Assign) :
    Decidable (lldbSat rows columns s) := by
  unfold lldbSat; infer_instance

instance (rows columns : Nat) (s : Assign) :
    Decidable (blackSat rows columns s) := by
  unfold blackSat; infer_instance

instance (rows columns : Nat) (ws : List (List Char)) (s : Assign) :
    Decidable (modelSat rows columns ws s) := by
  unfold modelSat; infer_instance

/-- A four-word input for a 2x2 grid: the word "AA" four times, so the two
rows and two columns can spell the same word through four distinct ids. -/
def demoWords : List (List Char) := [['A', 'A'], ['A', 'A'], ['A', 'A'], ['A', 'A']]

/-- A full satisfying assignment of the model built for a 2x2 grid over
`demoWords`: no black squares, every letter A, each row an across word and
each column a down word, ids 0 and 1 for the rows, 2 and 3 for the columns,
fresh ids 4..7 for the four unused id variables. -/
def demoAssign : Assign where
  L := fun _ _ => 1
  B := fun _ _ => false
  A := fun l _ c => decide (l = 2 ∧ c = 0)
  IA := fun r c => if c = 0 then (if r = 0 then 0 else 1) else (if r = 0 then 4 else 5)
  D := fun l r _ => decide (l = 2 ∧ r = 0)
  ID := fun r c => if r = 0 then (if c = 0 then 2 else 3) else (if c = 0 then 6 else 7)
  LLA := fun _ _ => false
  LLAB := fun _ _ => false
  LLD := fun _ _ => false
  LLDB := fun _ _ => false
  asgA := fun _ r _ i j => decide ((i < 2 ∧ j = 1) ∨ (i = 2 ∧ j = (if r = 0 then 0 else 1)))
  bA := fun _ r _ ti => decide (ti = (if r = 0 then 0 else 1))
  asgD := fun _ _ c i j => decide ((i < 2 ∧ j = 1) ∨ (i = 2 ∧ j = (if c = 0 then 2 else 3)))
  bD := fun _ _ c ti => decide (ti = (if c = 0 then 2 else 3))

/-- Table-call data for the C2 counterexample: the single tuple `[5, 0]` (a
one-letter word of code 5 with id 0). -/
def ctTuples : List (List Int) := [[5, 0]]

/-- Variable values for the C2 counterexample: they match the tuple. -/
def ctVals : List Int := [5, 0]

/-- Auxiliary `is_assigned` values for the C2 counterexample: all false. -/
def ctAsg : Nat → Nat → Bool := fun _ _ => false

/-- Auxiliary tuple-selected values for the C2 counterexample: all false. -/
def ctB : Nat → Bool := fun _ => false

/-- 0/1 value of a boolean, written as the if-expression sums unfold to. -/
theorem b2n_eq_ite (b : Bool) : b2n b = if b = true then 1 else 0 := by
  cases b <;> rfl

/-- A sum of 0/1 indicator values counts the true indices. -/
theorem sum_b2n_eq_card (m : Nat) (f : Nat → Bool) :
    (∑ i ∈ Finset.range m, b2n (f i)) =
      ((Finset.range m).filter fun i => f i = true).card := by
  rw [Finset.card_filter]
  exact Finset.sum_congr rfl fun i _ => b2n_eq_ite (f i)

/-- A 0/1 indicator sum equals 1 exactly when one index is true and it is the
only one. -/
theorem sum_b2n_eq_one_iff (m : Nat) (f : Nat → Bool) :
    (∑ i ∈ Finset.range m, b2n (f i)) = 1 ↔
      ∃ i, i < m ∧ f i = true ∧ ∀ j, j < m → f j = true → j = i := by
  rw [sum_b2n_eq_card, Finset.card_eq_one]
  constructor
  · rintro ⟨a, ha⟩
    have haf : a ∈ (Finset.range m).filter fun i => f i = true := by
      rw [ha]; exact Finset.mem_singleton_self a
    rw [Finset.mem_filter, Finset.mem_range] at haf
    refine ⟨a, haf.1, haf.2, fun j hj hjf => ?_⟩
    have hmem : j ∈ (Finset.range m).filter fun i => f i = true := by
      rw [Finset.mem_filter, Finset.mem_range]; exact ⟨hj, hjf⟩
    rw [ha, Finset.mem_singleton] at hmem
    exact hmem
  · rintro ⟨i, him, hif, huniq⟩
    refine ⟨i, ?_⟩
    ext x
    rw [Finset.mem_filter, Finset.mem_range, Finset.mem_singleton]
    exact ⟨fun hx => huniq x hx.1 hx.2, fun hx => hx ▸ ⟨him, hif⟩⟩

/-- Every member of a list bounds below its Python max (0-seeded fold). -/
theorem le_pyMax (t : List Int) (x : Int) (hx : x ∈ t) : x ≤ pyMax t := by
  induction t with
  | nil => cases hx
  | cons a t ih =>
    rcases List.mem_cons.mp hx with rfl | h
    · exact le_max_left _ _
    · exact le_trans (ih h) (le_max_right _ _)

/-- Every entry of every tuple is at most `max_value`. -/
theorem entry_le_maxVal (tuples : List (List Int)) (t : List Int)
    (ht : t ∈ tuples) (x : Int) (hx : x ∈ t) : x ≤ maxVal tuples :=
  le_trans (le_pyMax t x hx) (le_pyMax _ (pyMax t) (List.mem_map_of_mem _ ht))

/-- A nonnegative tuple entry indexes into the `0..max_value` value range. -/
theorem entry_toNat_lt_numVals (tuples : List (List Int)) (t : List Int)
    (ht : t ∈ tuples) (x : Int) (hx : x ∈ t) (hx0 : 0 ≤ x) :
    x.toNat < numVals tuples := by
  have h := entry_le_maxVal tuples t ht x hx
  unfold numVals
  omega

/-- Total indexing agrees with the list entry in range. -/
theorem getI_eq_getElem (v : List Int) (i : Nat) (h : i < v.length) :
    getI v i = v[i] := by
  unfold getI
  simp [List.getD_eq_getElem?_getD, List.getElem?_eq_getElem h]

/-- Lists of equal length with equal entries under total indexing are equal. -/
theorem list_eq_of_getI (v t : List Int) (hlen : v.length = t.length)
    (h : ∀ i < t.length, getI v i = getI t i) : v = t := by
  apply List.ext_getElem hlen
  intro i h1 h2
  have hi := h i h2
  rwa [getI_eq_getElem v i h1, getI_eq_getElem t i h2] at hi

/-- An in-range entry of a member tuple is a possible value at its position. -/
theorem possibleVal_of_mem (tuples : List (List Int)) (t : List Int)
    (ht : t ∈ tuples) (i : Nat) (hi : i < t.length) :
    possibleVal tuples i (getI t i) = true := by
  unfold possibleVal
  rw [List.any_eq_true]
  refine ⟨t, ht, ?_⟩
  rw [getI_eq_getElem t i hi]
  simp [List.get?_eq_getElem?, List.getElem?_eq_getElem hi]

/-- A tuple list cell read through `getD` is a member of the list when the
index is in range. -/
theorem getD_mem_of_lt (tuples : List (List Int)) (ti : Nat)
    (hti : ti < tuples.length) : tuples.getD ti [] ∈ tuples := by
  have h : tuples.getD ti [] = tuples[ti] := by
    simp [List.getD_eq_getElem?_getD, List.getElem?_eq_getElem hti]
  rw [h]
  exact List.getElem_mem hti

/-- Claim C1: the reified table builder imposes nothing when the guard is
false; when the guard is true an assignment of the k variables together with
the id variable is accepted exactly when it equals some tuple, and every
accepted guard-true assignment selects exactly one tuple boolean.  The
hypotheses say the tuple set is well formed as at every call site: each tuple
has the length of the variable list (k letters plus the id slot) and
nonnegative entries. -/
theorem table_reified_semantics (tuples : List (List Int)) (vals : List Int)
    (hlen : ∀ t ∈ tuples, t.length = vals.length)
    (hpos : ∀ t ∈ tuples, ∀ x ∈ t, 0 ≤ x) :
    tableAccepts tuples vals false ∧
    (tableAccepts tuples vals true ↔ ∃ t ∈ tuples, vals = t) ∧
    (∀ asg bb, tableSat tuples vals true asg bb →
      (∑ ti ∈ Finset.range tuples.length, b2n (bb ti)) = 1) := by
  refine ⟨?_, ⟨?_, ?_⟩, ?_⟩
  · exact ⟨fun _ _ => false, fun _ => false,
      fun i _ j _ _ _ => rfl,
      fun i _ hg => Bool.noConfusion hg,
      fun i _ j _ ha => Bool.noConfusion ha,
      fun ti _ hb => Bool.noConfusion hb,
      fun hg => Bool.noConfusion hg⟩
  · rintro ⟨asg, bb, h1, h2, h3, h4, h5⟩
    obtain ⟨ti, hti, hbti, -⟩ := (sum_b2n_eq_one_iff tuples.length bb).mp (h5 rfl)
    have hmem : tuples.getD ti [] ∈ tuples := getD_mem_of_lt tuples ti hti
    refine ⟨tuples.getD ti [], hmem, ?_⟩
    have hlen2 : (tuples.getD ti []).length = vals.length := hlen _ hmem
    apply list_eq_of_getI vals (tuples.getD ti []) hlen2.symm
    intro k hk
    have hasg := h4 ti hti hbti k hk
    have hx : getI (tuples.getD ti []) k ∈ tuples.getD ti [] := by
      rw [getI_eq_getElem _ k hk]
      exact List.getElem_mem hk
    have hx0 : 0 ≤ getI (tuples.getD ti []) k := hpos _ hmem _ hx
    have hjlt : (getI (tuples.getD ti []) k).toNat < numVals tuples :=
      entry_toNat_lt_numVals tuples _ hmem _ hx hx0
    have hk2 : k < vals.length := hlen2 ▸ hk
    have h := h3 k hk2 _ hjlt hasg
    rwa [Int.toNat_of_nonneg hx0] at h
  · rintro ⟨t, hmem, rfl⟩
    obtain ⟨ti, hti, hteq⟩ := List.mem_iff_getElem.mp hmem
    have hts : tuples.getD ti [] = vals := by
      simp [List.getD_eq_getElem?_getD, List.getElem?_eq_getElem hti, hteq]
    refine ⟨fun i j => decide (i < vals.length ∧ getI vals i = (j : Int)),
        fun k => decide (k = ti), ?_, ?_, ?_, ?_, ?_⟩
    · intro i _ j _ hp _
      rw [decide_eq_false_iff_not]
      rintro ⟨hi2, hgi⟩
      have hpt := possibleVal_of_mem tuples vals hmem i hi2
      rw [hgi, hp] at hpt
      exact Bool.noConfusion hpt
    · intro i hi _
      apply (sum_b2n_eq_one_iff _ _).mpr
      have hx : getI vals i ∈ vals := by
        rw [getI_eq_getElem vals i hi]
        exact List.getElem_mem hi
      have hx0 : 0 ≤ getI vals i := hpos vals hmem _ hx
      refine ⟨(getI vals i).toNat, entry_toNat_lt_numVals tuples vals hmem _ hx hx0,
        decide_eq_true ⟨hi, (Int.toNat_of_nonneg hx0).symm⟩, ?_⟩
      intro j _ hdec
      have hgj := (of_decide_eq_true hdec).2
      omega
    · intro i _ j _ ha
      exact (of_decide_eq_true ha).2
    · intro ti2 _ hb k hk
      have hei : ti2 = ti := of_decide_eq_true hb
      rw [hei, hts] at hk ⊢
      have hx : getI vals k ∈ vals := by
        rw [getI_eq_getElem vals k hk]
        exact List.getElem_mem hk
      have hx0 : 0 ≤ getI vals k := hpos vals hmem _ hx
      exact decide_eq_true ⟨hk, (Int.toNat_of_nonneg hx0).symm⟩
    · intro _
      apply (sum_b2n_eq_one_iff _ _).mpr
      exact ⟨ti, hti, decide_eq_true rfl, fun j _ hdec => of_decide_eq_true hdec⟩
  · rintro asg bb ⟨-, -, -, -, h5⟩
    exact h5 rfl

/-- Witness for C1 at the 2x2 demo word table and the assignment matching the
tuple of id 2: the hypotheses hold and the theorem applies. -/
theorem table_reified_semantics_witness :
    (∀ t ∈ load_words demoWords 2, t.length = ([1, 1, 2] : List Int).length) ∧
    (∀ t ∈ load_words demoWords 2, ∀ x ∈ t, 0 ≤ x) ∧
    (tableAccepts (load_words demoWords 2) [1, 1, 2] false ∧
      (tableAccepts (load_words demoWords 2) [1, 1, 2] true ↔
        ∃ t ∈ load_words demoWords 2, ([1, 1, 2] : List Int) = t) ∧
      (∀ asg bb, tableSat (load_words demoWords 2) [1, 1, 2] true asg bb →
        (∑ ti ∈ Finset.range (load_words demoWords 2).length, b2n (bb ti)) = 1)) :=
  ⟨by decide, by decide,
    table_reified_semantics (load_words demoWords 2) [1, 1, 2] (by decide) (by decide)⟩

/-- Claim C2 counterexample: line 90 posts only the forward implication
(indicator forces value), so the link is not biconditional.  With the single
tuple `[5, 0]`, matching variable values and the guard false, the all-false
auxiliaries satisfy every posted table constraint while `variables[0] = 5`
and `is_assigned[0][5]` is false. -/
theorem table_link_one_directional :
    tableSat ctTuples ctVals false ctAsg ctB ∧
    ¬ (∀ i < ctVals.length, ∀ j < numVals ctTuples,
        (ctAsg i j = true ↔ getI ctVals i = (j : Int))) := by decide

/-- Claim C2 (amended): each value-assigned indicator forces its variable to
equal its value — the one direction line 90 posts — and whenever the guard is
true the link is biconditional in every satisfying assignment, since each
variable then carries exactly one indicator. -/
theorem table_link_amended (tuples : List (List Int)) (vals : List Int)
    (guard : Bool) (asg : Nat → Nat → Bool) (bb : Nat → Bool)
    (h : tableSat tuples vals guard asg bb) :
    (∀ i < vals.length, ∀ j < numVals tuples,
      asg i j = true → getI vals i = (j : Int)) ∧
    (guard = true → ∀ i < vals.length, ∀ j < numVals tuples,
      (asg i j = true ↔ getI vals i = (j : Int))) := by
  obtain ⟨h1, h2, h3, h4, h5⟩ := h
  refine ⟨h3, ?_⟩
  intro hg i hi j hj
  constructor
  · exact h3 i hi j hj
  · intro hval
    obtain ⟨j0, hj0, hj0t, huniq⟩ := (sum_b2n_eq_one_iff _ _).mp (h2 i hi hg)
    have hv0 := h3 i hi j0 hj0 hj0t
    have hjj : j = j0 := by omega
    rw [hjj]
    exact hj0t

/-- Witness for the amended C2 at the guard-true down table call of the 2x2
demo grid at cell (0,0). -/
theorem table_link_amended_witness :
    tableSat (load_words demoWords 2) (downVals demoAssign 2 0 0) true
      (demoAssign.asgD 2 0 0) (demoAssign.bD 2 0 0) ∧
    ((∀ i < (downVals demoAssign 2 0 0).length, ∀ j < numVals (load_words demoWords 2),
        demoAssign.asgD 2 0 0 i j = true →
          getI (downVals demoAssign 2 0 0) i = (j : Int)) ∧
      (true = true → ∀ i < (downVals demoAssign 2 0 0).length,
        ∀ j < numVals (load_words demoWords 2),
        (demoAssign.asgD 2 0 0 i j = true ↔
          getI (downVals demoAssign 2 0 0) i = (j : Int)))) :=
  ⟨by decide, table_link_amended (load_words demoWords 2) (downVals demoAssign 2 0 0)
    true (demoAssign.asgD 2 0 0) (demoAssign.bD 2 0 0) (by decide)⟩

/-- A sum over an inclusive interval rewritten as a sum over offsets. -/
theorem sum_Icc_shift (f : Nat → Nat) (a b : Nat) :
    (∑ x ∈ Finset.Icc a b, f x) = ∑ j ∈ Finset.range (b + 1 - a), f (a + j) := by
  rw [← Nat.Ico_succ_right, Finset.sum_Ico_eq_sum_range]

/-- The claim's inclusive-range windows coincide with the offset windows the
across loop posts, branch by branch. -/
theorem specAcrossWindowSum_eq (s : Assign) (columns l r c : Nat) (hc : c < columns) :
    specAcrossWindowSum s columns l r c = acrossWindowSum s columns l r c := by
  unfold specAcrossWindowSum acrossWindowSum
  by_cases h1 : l = columns
  · rw [if_pos h1, if_pos h1]
    refine Finset.sum_congr rfl fun i _ => ?_
    rw [sum_Icc_shift]
    have he : columns - 1 + 1 - c = columns - c := by omega
    rw [he]
  · rw [if_neg h1, if_neg h1]
    by_cases h2 : c = 0
    · rw [if_pos h2, if_pos h2]
      refine Finset.sum_congr rfl fun i _ => ?_
      rw [sum_Icc_shift]
      have he : c + l + 1 - c = l + 1 := by omega
      rw [he]
    · rw [if_neg h2, if_neg h2]
      by_cases h3 : c + l = columns
      · rw [if_pos h3, if_pos h3]
        refine Finset.sum_congr rfl fun i _ => ?_
        rw [sum_Icc_shift]
        have he : columns - 1 + 1 - c = columns - c := by omega
        rw [he]
      · rw [if_neg h3, if_neg h3]
        refine Finset.sum_congr rfl fun i _ => ?_
        rw [sum_Icc_shift]
        have he : c + l + 1 - (c - 1) = l + 2 := by omega
        rw [he]

/-- Claim C3: for every across candidate placement whose length has words and
which fits the row, the model conditions a sum-equals-1 on the start
indicator over exactly the claimed window — the whole row from `c` when the
word is full-span, columns `c..c+l` from the left edge, columns
`c..columns-1` into the right edge, and columns `c-1..c+l` in the interior —
ranging over all lengths. -/
theorem across_window_four_cases (rows columns : Nat) (ws : List (List Char))
    (s : Assign) (h : modelSat rows columns ws s) (l r c : Nat)
    (hl : l < columns + 1) (hr : r < rows) (hc : c < columns)
    (hw : hasLen ws l = true) (hfit : l ≤ columns - c) (hA : s.A l r c = true) :
    specAcrossWindowSum s columns l r c = 1 := by
  obtain ⟨-, -, hacross, -⟩ := h
  have hcell := hacross l hl r hr c hc
  unfold acrossCell at hcell
  rw [if_neg (by rw [hw]; exact fun he => Bool.noConfusion he)] at hcell
  rw [if_neg (not_lt.mpr hfit)] at hcell
  rw [specAcrossWindowSum_eq s columns l r c hc]
  exact hcell.1 hA

/-- Witness for C3: the 2x2 demo grid's full-span across placement at row 0. -/
theorem across_window_four_cases_witness :
    modelSat 2 2 demoWords demoAssign ∧
    specAcrossWindowSum demoAssign 2 2 0 0 = 1 :=
  ⟨by decide, across_window_four_cases 2 2 demoWords demoAssign (by decide)
    2 0 0 (by decide) (by decide) (by decide) (by decide) (by decide) (by decide)⟩

/-- `l in wordlist` holds exactly when the wordlist's tuple list at `l` is
nonempty: `load_words` creates a key only while appending a tuple to it. -/
theorem hasLen_iff_load_words_ne_nil (ws : List (List Char)) (l : Nat) :
    hasLen ws l = true ↔ load_words ws l ≠ [] := by
  unfold hasLen load_words
  rw [List.any_eq_true, Ne, List.map_eq_nil_iff, List.filter_eq_nil_iff]
  constructor
  · rintro ⟨w, hw, hwl⟩ hall
    rw [← List.enum_map_snd ws] at hw
    obtain ⟨p, hp, rfl⟩ := List.mem_map.mp hw
    exact hall p hp hwl
  · intro h
    by_contra hno
    apply h
    intro p hp hbeq
    apply hno
    refine ⟨p.2, ?_, hbeq⟩
    rw [← List.enum_map_snd ws]
    exact List.mem_map_of_mem _ hp

/-- Claim C4: a start indicator whose length has no words, or whose word
would overrun the row (column), is forced false, both across and down; and
every placement at which the table builder is invoked carries a nonempty
tuple set, so the builder never sees an empty table. -/
theorem invalid_start_forced_false (rows columns : Nat) (ws : List (List Char))
    (s : Assign) (h : modelSat rows columns ws s) :
    (∀ l < columns + 1, ∀ r < rows, ∀ c < columns,
      hasLen ws l = false ∨ columns - c < l → s.A l r c = false) ∧
    (∀ l < rows + 1, ∀ r < rows, ∀ c < columns,
      hasLen ws l = false ∨ rows - r < l → s.D l r c = false) ∧
    (∀ p ∈ acrossTableCalls rows columns ws, load_words ws p.1 ≠ []) ∧
    (∀ p ∈ downTableCalls rows columns ws, load_words ws p.1 ≠ []) := by
  obtain ⟨-, -, hacross, hdown, -⟩ := h
  refine ⟨?_, ?_, ?_, ?_⟩
  · intro l hl r hr c hc hcase
    have hcell := hacross l hl r hr c hc
    unfold acrossCell at hcell
    rcases hcase with hw | hfit
    · rwa [if_pos hw] at hcell
    · by_cases hw2 : hasLen ws l = false
      · rwa [if_pos hw2] at hcell
      · rwa [if_neg hw2, if_pos hfit] at hcell
  · intro l hl r hr c hc hcase
    have hcell := hdown l hl r hr c hc
    unfold downCell at hcell
    rcases hcase with hw | hfit
    · rwa [if_pos hw] at hcell
    · by_cases hw2 : hasLen ws l = false
      · rwa [if_pos hw2] at hcell
      · rwa [if_neg hw2, if_pos hfit] at hcell
  · intro p hp
    rw [acrossTableCalls, List.mem_filter, Bool.and_eq_true] at hp
    exact (hasLen_iff_load_words_ne_nil ws p.1).mp hp.2.1
  · intro p hp
    rw [downTableCalls, List.mem_filter, Bool.and_eq_true] at hp
    exact (hasLen_iff_load_words_ne_nil ws p.1).mp hp.2.1

/-- Witness for C4 at the 2x2 demo grid. -/
theorem invalid_start_forced_false_witness :
    modelSat 2 2 demoWords demoAssign ∧
    ((∀ l < 2 + 1, ∀ r < 2, ∀ c < 2,
        hasLen demoWords l = false ∨ 2 - c < l → demoAssign.A l r c = false) ∧
      (∀ l < 2 + 1, ∀ r < 2, ∀ c < 2,
        hasLen demoWords l = false ∨ 2 - r < l → demoAssign.D l r c = false) ∧
      (∀ p ∈ acrossTableCalls 2 2 demoWords, load_words demoWords p.1 ≠ []) ∧
      (∀ p ∈ downTableCalls 2 2 demoWords, load_words demoWords p.1 ≠ [])) :=
  ⟨by decide, invalid_start_forced_false 2 2 demoWords demoAssign (by decide)⟩

/-- Claim C5: the solve outcome is treated as success exactly for the
OPTIMAL (proven-feasible) status; under every other status — infeasible,
unknown/inconclusive, model-invalid/error, or feasible-but-unproven — the
script exits before reading any letter variable, so no partial grid is
decoded. -/
theorem solve_success_iff_optimal (status : CpStatus) (rows columns : Nat)
    (lVal : Nat → Nat → Int) :
    ((solveOutput status rows columns lVal).isSome ↔ status = CpStatus.optimal) ∧
    solveOutput CpStatus.feasible rows columns lVal = none ∧
    solveOutput CpStatus.infeasible rows columns lVal = none ∧
    solveOutput CpStatus.unknown rows columns lVal = none ∧
    solveOutput CpStatus.modelInvalid rows columns lVal = none := by
  refine ⟨?_, rfl, rfl, rfl, rfl⟩
  cases status <;> simp [solveOutput, statusName]

/-- Claim C9: the down construction is the row/column-transposed mirror of
the across construction — pointwise for every `(l, r, c)`, and for the two
whole loop sections with `rows` and `columns` exchanged. -/
theorem down_mirrors_across (rows columns : Nat) (ws : List (List Char)) (s : Assign) :
    (∀ l r c, downCell rows ws s l r c ↔ acrossCell rows ws (transposeAssign s) l c r) ∧
    (downSat rows columns ws s ↔ acrossSat columns rows ws (transposeAssign s)) := by
  have hcell : ∀ l r c,
      downCell rows ws s l r c ↔ acrossCell rows ws (transposeAssign s) l c r :=
    fun l r c => Iff.rfl
  refine ⟨hcell, ?_⟩
  constructor
  · intro h l hl c hc r hr
    exact (hcell l r c).mp (h l hl r hr c hc)
  · intro h l hl r hr c hc
    exact (hcell l r c).mpr (h l hl c hc r hr)

/-- The cell enumeration holds exactly the in-range cells. -/
theorem mem_allCells (rows columns : Nat) (p : Nat × Nat) :
    p ∈ allCells rows columns ↔ p.1 < rows ∧ p.2 < columns := by
  unfold allCells
  rw [List.mem_flatMap]
  constructor
  · rintro ⟨r, hr, hp⟩
    obtain ⟨c, hc, rfl⟩ := List.mem_map.mp hp
    exact ⟨List.mem_range.mp hr, List.mem_range.mp hc⟩
  · rintro ⟨h1, h2⟩
    exact ⟨p.1, List.mem_range.mpr h1,
      List.mem_map.mpr ⟨p.2, List.mem_range.mpr h2, rfl⟩⟩

/-- The cell enumeration has no duplicate cell. -/
theorem allCells_nodup (rows columns : Nat) : (allCells rows columns).Nodup :=
  List.Nodup.product (List.nodup_range rows) (List.nodup_range columns)

/-- Claim C7: in every solved grid the across and down id values, taken
together over all cells, are pairwise distinct — two distinct cells never
share an across id nor a down id, and no across id equals any down id. -/
theorem solved_ids_pairwise_distinct (rows columns : Nat) (ws : List (List Char))
    (s : Assign) (h : modelSat rows columns ws s) :
    ∀ r < rows, ∀ c < columns, ∀ r2 < rows, ∀ c2 < columns,
      ((r, c) ≠ (r2, c2) → s.IA r c ≠ s.IA r2 c2) ∧
      ((r, c) ≠ (r2, c2) → s.ID r c ≠ s.ID r2 c2) ∧
      s.IA r c ≠ s.ID r2 c2 := by
  obtain ⟨-, -, -, -, hnd, -⟩ := h
  unfold allIdVals at hnd
  rw [List.nodup_append] at hnd
  obtain ⟨hIA, hID, hdisj⟩ := hnd
  intro r hr c hc r2 hr2 c2 hc2
  have hm1 : ((r, c) : Nat × Nat) ∈ allCells rows columns :=
    (mem_allCells rows columns (r, c)).mpr ⟨hr, hc⟩
  have hm2 : ((r2, c2) : Nat × Nat) ∈ allCells rows columns :=
    (mem_allCells rows columns (r2, c2)).mpr ⟨hr2, hc2⟩
  refine ⟨?_, ?_, ?_⟩
  · intro hne heq
    exact hne (List.inj_on_of_nodup_map hIA hm1 hm2 heq)
  · intro hne heq
    exact hne (List.inj_on_of_nodup_map hID hm1 hm2 heq)
  · intro heq
    apply hdisj (List.mem_map_of_mem _ hm1)
    rw [heq]
    exact List.mem_map_of_mem _ hm2

/-- Witness for C7 at the 2x2 demo grid: all eight id values are pairwise
distinct; in that grid the rows and the columns all spell the same word, so
spelling reuse through distinct ids is realized at the same time. -/
theorem solved_ids_pairwise_distinct_witness :
    modelSat 2 2 demoWords demoAssign ∧
    (∀ r < 2, ∀ c < 2, ∀ r2 < 2, ∀ c2 < 2,
      ((r, c) ≠ (r2, c2) → demoAssign.IA r c ≠ demoAssign.IA r2 c2) ∧
      ((r, c) ≠ (r2, c2) → demoAssign.ID r c ≠ demoAssign.ID r2 c2) ∧
      demoAssign.IA r c ≠ demoAssign.ID r2 c2) :=
  ⟨by decide, solved_ids_pairwise_distinct 2 2 demoWords demoAssign (by decide)⟩

/-- Claim C8: in every solved grid the number of black cells (letter value 0)
is at most the exact integer floor of rows*columns/5, and when the grid is at
least 3x3 every 3x3 sub-window holds at most 2 black cells. -/
theorem solved_black_density (rows columns : Nat) (ws : List (List Char))
    (s : Assign) (h : modelSat rows columns ws s) :
    blackCellCount s rows columns ≤ rows * columns / 5 ∧
    (3 ≤ rows → 3 ≤ columns →
      ∀ r < rows - 2, ∀ c < columns - 2, blackCellWindow s r c ≤ 2) := by
  obtain ⟨-, hlink, -, -, -, -, -, -, -, hblack⟩ := h
  obtain ⟨-, hwin, htot⟩ := hblack
  have hcell : ∀ r < rows, ∀ c < columns,
      (if s.L r c = 0 then 1 else 0) = b2n (s.B r c) := by
    intro r hr c hc
    obtain ⟨h1, h2⟩ := hlink r hr c hc
    cases hB : s.B r c
    · rw [if_neg (h2 hB)]; rfl
    · rw [if_pos (h1 hB)]; rfl
  constructor
  · calc blackCellCount s rows columns = blackTotal s rows columns := by
          unfold blackCellCount blackTotal
          refine Finset.sum_congr rfl fun r hrm => Finset.sum_congr rfl fun c hcm => ?_
          exact hcell r (Finset.mem_range.mp hrm) c (Finset.mem_range.mp hcm)
      _ ≤ rows * columns / 5 := htot
  · intro h3r h3c r hrlt c hclt
    calc blackCellWindow s r c = blackWindow s r c := by
          unfold blackCellWindow blackWindow
          refine Finset.sum_congr rfl fun i him => Finset.sum_congr rfl fun j hjm => ?_
          have hi := Finset.mem_Ico.mp him
          have hj := Finset.mem_Ico.mp hjm
          exact hcell i (by omega) j (by omega)
      _ ≤ 2 := hwin h3r h3c r hrlt c hclt

/-- Witness for C8 at the 2x2 demo grid: zero black squares against the
bound floor(4/5) = 0. -/
theorem solved_black_density_witness :
    modelSat 2 2 demoWords demoAssign ∧
    (blackCellCount demoAssign 2 2 ≤ 2 * 2 / 5 ∧
      (3 ≤ 2 → 3 ≤ 2 →
        ∀ r < 2 - 2, ∀ c < 2 - 2, blackCellWindow demoAssign r c ≤ 2)) :=
  ⟨by decide, solved_black_density 2 2 demoWords demoAssign (by decide)⟩

/-- The coverage window the script sums — one term per length `i` and
backward offset `j < min(i, c+1)` — re-indexed as the claim counts it: one
term per length `i` and start position `x ≤ c` with the run extending past
`c`. -/
theorem cover_reindex (g : Nat → Nat → Bool) (m c : Nat) :
    (∑ i ∈ Finset.range m, ∑ j ∈ Finset.range (min i (c + 1)), b2n (g i (c - j))) =
      ∑ i ∈ Finset.range m, ∑ x ∈ Finset.range (c + 1),
        if c < x + i ∧ g i x = true then 1 else 0 := by
  refine Finset.sum_congr rfl fun i _ => ?_
  have h1 : ∀ x, (if c < x + i ∧ g i x = true then 1 else 0) =
      (if c < x + i then b2n (g i x) else 0) := by
    intro x
    by_cases hp : c < x + i <;> by_cases hq : g i x = true <;> simp [hp, hq, b2n]
  have hz : (∑ x ∈ Finset.Ico 0 (c + 1 - min i (c + 1)),
      if c < x + i then b2n (g i x) else 0) = 0 := by
    apply Finset.sum_eq_zero
    intro x hx
    rw [Finset.mem_Ico] at hx
    rw [if_neg (by omega)]
  have hrhs : (∑ x ∈ Finset.range (c + 1), if c < x + i ∧ g i x = true then 1 else 0)
      = ∑ x ∈ Finset.Ico (c + 1 - min i (c + 1)) (c + 1), b2n (g i x) := by
    rw [Finset.sum_congr rfl fun x _ => h1 x]
    rw [Finset.range_eq_Ico]
    rw [← Finset.sum_Ico_consecutive _ (Nat.zero_le (c + 1 - min i (c + 1)))
        (by omega : c + 1 - min i (c + 1) ≤ c + 1)]
    rw [hz, zero_add]
    exact Finset.sum_congr rfl fun x hx =>
      if_pos (by rw [Finset.mem_Ico] at hx; omega : c < x + i)
  have hlhs : (∑ j ∈ Finset.range (min i (c + 1)), b2n (g i (c - j)))
      = ∑ x ∈ Finset.Ico (c + 1 - min i (c + 1)) (c + 1), b2n (g i x) := by
    rw [Finset.sum_Ico_eq_sum_range]
    have hm : c + 1 - (c + 1 - min i (c + 1)) = min i (c + 1) := by omega
    rw [hm]
    conv_rhs => rw [← Finset.sum_range_reflect]
    refine Finset.sum_congr rfl fun j hj => ?_
    rw [Finset.mem_range] at hj
    have harg : c - j = c + 1 - min i (c + 1) + (min i (c + 1) - 1 - j) := by omega
    rw [harg]
  rw [hlhs, hrhs]

/-- Claim C6: in every solved grid, a non-black cell that is not an across
lone letter is covered by exactly one active across start indicator, a
non-black cell that is not a down lone letter is covered by exactly one
active down start indicator, and no cell is a lone letter in both
orientations at once. -/
theorem solved_cell_coverage (rows columns : Nat) (ws : List (List Char))
    (s : Assign) (h : modelSat rows columns ws s) :
    ∀ r < rows, ∀ c < columns,
      (s.L r c ≠ 0 → s.LLA r c = false → acrossCoverCount s columns r c = 1) ∧
      (s.L r c ≠ 0 → s.LLD r c = false → downCoverCount s rows r c = 1) ∧
      ¬(s.LLA r c = true ∧ s.LLD r c = true) := by
  obtain ⟨-, hlink, -, -, -, -, hllab, -, hlldb, hblack⟩ := h
  obtain ⟨hllabLink, hcoverA⟩ := hllab
  obtain ⟨hlldbLink, hcoverD⟩ := hlldb
  obtain ⟨hlone, -, -⟩ := hblack
  intro r hr c hc
  have hBfalse : s.L r c ≠ 0 → s.B r c = false := by
    intro hL
    cases hB : s.B r c
    · rfl
    · exact absurd ((hlink r hr c hc).1 hB) hL
  refine ⟨?_, ?_, ?_⟩
  · intro hL hLLA
    have hLLAB : s.LLAB r c = false := by
      cases hAB : s.LLAB r c
      · rfl
      · have h1 := (hllabLink r hr c hc).1 hAB
        rw [hLLA, hBfalse hL] at h1
        simp [b2n] at h1
    have hsum := hcoverA r hr c hc hLLAB
    calc acrossCoverCount s columns r c
        = acrossCoverSum s columns r c :=
          (cover_reindex (fun i x => s.A i r x) (columns + 1) c).symm
      _ = 1 := hsum
  · intro hL hLLD
    have hLLDB : s.LLDB r c = false := by
      cases hDB : s.LLDB r c
      · rfl
      · have h1 := (hlldbLink r hr c hc).1 hDB
        rw [hLLD, hBfalse hL] at h1
        simp [b2n] at h1
    have hsum := hcoverD r hr c hc hLLDB
    calc downCoverCount s rows r c
        = downCoverSum s rows r c :=
          (cover_reindex (fun i x => s.D i x c) (rows + 1) r).symm
      _ = 1 := hsum
  · rintro ⟨hA, hD⟩
    have h1 := hlone r hr c hc
    rw [hA, hD] at h1
    simp [b2n] at h1

/-- Witness for C6 at the 2x2 demo grid. -/
theorem solved_cell_coverage_witness :
    modelSat 2 2 demoWords demoAssign ∧
    (∀ r < 2, ∀ c < 2,
      (demoAssign.L r c ≠ 0 → demoAssign.LLA r c = false →
        acrossCoverCount demoAssign 2 r c = 1) ∧
      (demoAssign.L r c ≠ 0 → demoAssign.LLD r c = false →
        downCoverCount demoAssign 2 r c = 1) ∧
      ¬(demoAssign.LLA r c = true ∧ demoAssign.LLD r c = true)) :=
  ⟨by decide, solved_cell_coverage 2 2 demoWords demoAssign (by decide)⟩

/-- Claim C10 (the code diverges): at rows = columns = 1 model construction
does not complete — posting the first lone-letter edge constraint (line 258)
reads `B[r][1]`, an out-of-range index for a one-column grid, so Python
raises IndexError before the solver is ever invoked, and no InfeasibleModel
status is reported. -/
theorem single_cell_construction_fails : constructionOk 1 1 = false := by decide

end Crosswords
